import Mathlib

/-!
Verification of the cargo-ci-precache cache-pruning tool.

This file shallowly embeds the parts of the program relevant to the
specification claims: the fingerprint hashing scheme (`src/fingerprint.rs`),
the mark-propagation worklist and target-directory sweep (`src/lib.rs`),
the feature-string serialization (`src/meta.rs`), the dependency-info
first-path parser, the metadata-hash filename convention, and the
global-cache sweep.  Machine integers are modelled as `Nat` reduced
modulo `2 ^ 64` where overflow matters; strings fed to the hasher are
modelled as byte lists; fallible operations return `Option`/`Except`.
-/

namespace CiPrecache

/-- Bytes of a hashed string, as natural numbers below 256. -/
abbrev Str := List Nat

/-- A filesystem path as hashed by the standard library: a list of
normal components, each a byte list. -/
abbrev RPath := List Str

/-! ## 64-bit arithmetic helpers -/

/-- Truncate to 64 bits. -/
def w64 (n : Nat) : Nat := n % 2 ^ 64

/-- 64-bit wrapping addition. -/
def add64 (a b : Nat) : Nat := w64 (a + b)

/-- 64-bit left rotation (operands assumed below `2 ^ 64`). -/
def rotl64 (x r : Nat) : Nat :=
  w64 (x * 2 ^ (r % 64)) ||| (x / 2 ^ (64 - r % 64))

/-! ## SipHash-2-4 with the fixed zero key

`core::hash::SipHasher::default()` is SipHash-2-4 keyed with
`k0 = k1 = 0`.  The finished hash depends only on the concatenation of
all bytes written, so the hasher is modelled as a pure function from the
written byte list to the 64-bit result. -/

structure SipState where
  v0 : Nat
  v1 : Nat
  v2 : Nat
  v3 : Nat
deriving Repr, DecidableEq

/-- One SipHash mixing round. -/
def sipRound (s : SipState) : SipState :=
  let v0 := add64 s.v0 s.v1
  let v1 := rotl64 s.v1 13
  let v1 := v1 ^^^ v0
  let v0 := rotl64 v0 32
  let v2 := add64 s.v2 s.v3
  let v3 := rotl64 s.v3 16
  let v3 := v3 ^^^ v2
  let v0 := add64 v0 v3
  let v3 := rotl64 v3 21
  let v3 := v3 ^^^ v0
  let v2 := add64 v2 v1
  let v1 := rotl64 v1 17
  let v1 := v1 ^^^ v2
  let v2 := rotl64 v2 32
  ⟨v0, v1, v2, v3⟩

/-- Compress one 8-byte little-endian message word (two rounds). -/
def sipCompress (s : SipState) (m : Nat) : SipState :=
  let s := { s with v3 := s.v3 ^^^ m }
  let s := sipRound (sipRound s)
  { s with v0 := s.v0 ^^^ m }

/-- Split a byte list into full 8-byte words (little-endian) and the
remaining tail of fewer than 8 bytes. -/
def sipWords : List Nat → List Nat × List Nat
  | b0 :: b1 :: b2 :: b3 :: b4 :: b5 :: b6 :: b7 :: rest =>
    let (ws, r) := sipWords rest
    (((b0 + 256 * (b1 + 256 * (b2 + 256 * (b3 + 256 * (b4 + 256 *
        (b5 + 256 * (b6 + 256 * b7))))))) : Nat) :: ws, r)
  | rest => ([], rest)

/-- Little-endian value of fewer than 8 trailing bytes. -/
def leTail (bs : List Nat) : Nat :=
  bs.foldr (fun b acc => b + 256 * acc) 0

/-- Initial SipHash state for the zero key. -/
def sipInit : SipState :=
  ⟨0x736f6d6570736575, 0x646f72616e646f6d, 0x6c7967656e657261, 0x7465646279746573⟩

/-- SipHash-2-4 of a byte list with key zero. -/
def sipHash24 (msg : List Nat) : Nat :=
  let (ws, rem) := sipWords msg
  let s := ws.foldl sipCompress sipInit
  let last := leTail rem + (msg.length % 256) * 2 ^ 56
  let s := sipCompress s last
  let s := { s with v2 := s.v2 ^^^ 0xff }
  let s := sipRound (sipRound (sipRound (sipRound s)))
  ((s.v0 ^^^ s.v1) ^^^ s.v2) ^^^ s.v3

/-! ## Hasher write primitives

These reproduce what Rust's `Hash` implementations feed to the hasher on
a 64-bit little-endian target: integers as little-endian bytes, strings
as their bytes followed by a `0xff` terminator, slices as a length
prefix followed by the elements, enum variants as their discriminant
followed by the payload. -/

/-- The 8 little-endian bytes of a 64-bit value (`write_u64` /
`write_usize` / `write_isize`). -/
def encU64 (n : Nat) : List Nat :=
  [n % 256, n / 2 ^ 8 % 256, n / 2 ^ 16 % 256, n / 2 ^ 24 % 256,
   n / 2 ^ 32 % 256, n / 2 ^ 40 % 256, n / 2 ^ 48 % 256, n / 2 ^ 56 % 256]

/-- `bool` hashes as one byte (`write_u8(b as u8)`). -/
def encBool (b : Bool) : List Nat := [if b then 1 else 0]

/-- `str` hashes as its bytes followed by `0xff`. -/
def encStr (s : Str) : List Nat := s ++ [0xff]

/-- A slice hashes as `write_usize(len)` followed by the elements. -/
def encList (enc : α → List Nat) (l : List α) : List Nat :=
  encU64 l.length ++ (l.map enc).flatten

/-- A path component hashes as the `Normal` discriminant of
`std::path::Component` followed by the `OsStr` bytes and terminator;
modelled from the standard library, which the repository relies on for
`PathBuf` hashing. -/
def encPath (p : RPath) : List Nat :=
  (p.map (fun c => encU64 4 ++ encU64 c.length ++ c)).flatten

/-- `Option<String>` hashes as the derived discriminant followed by the
payload. -/
def encOptStr : Option Str → List Nat
  | none => encU64 0
  | some s => encU64 1 ++ encStr s

/-! ## The fingerprint data model (`src/fingerprint.rs`) -/

/-- One dependency entry of a fingerprint record. -/
structure DepFingerprint where
  pkg_id : Nat
  name : Str
  public : Bool
  fingerprint : Nat
deriving Repr, DecidableEq

/-- A "local" invalidation trigger. -/
inductive LocalFingerprint where
  | Precalculated (s : Str)
  | CheckDepInfo (dep_info : RPath)
  | RerunIfChanged (output : RPath) (paths : List RPath)
  | RerunIfEnvChanged (var : Str) (val : Option Str)
deriving Repr, DecidableEq

/-- A fingerprint record, one per build unit. -/
structure Fingerprint where
  rustc : Nat
  features : Str
  target : Nat
  profile : Nat
  path : Nat
  deps : List DepFingerprint
  local_ : List LocalFingerprint
  rustflags : List Str
  metadata : Nat
  config : Nat
deriving Repr, DecidableEq

/-- Byte stream of the derived `Hash` for `LocalFingerprint`: the
variant discriminant, then each payload field in order. -/
def encLocal : LocalFingerprint → List Nat
  | .Precalculated s => encU64 0 ++ encStr s
  | .CheckDepInfo p => encU64 1 ++ encPath p
  | .RerunIfChanged out paths => encU64 2 ++ encPath out ++ encList encPath paths
  | .RerunIfEnvChanged var val => encU64 3 ++ encStr var ++ encOptStr val

/-- Byte stream fed to the hasher by `impl Hash for Fingerprint`: first
the 9-tuple `(rustc, features, target, path, profile, local, metadata,
config, rustflags)`, then `write_usize(deps.len())`, then for each
dependency its `pkg_id`, `name`, `public` and stored `fingerprint`. -/
def Fingerprint.hashBytes (f : Fingerprint) : List Nat :=
  encU64 f.rustc ++ encStr f.features ++ encU64 f.target ++ encU64 f.path ++
    encU64 f.profile ++ encList encLocal f.local_ ++ encU64 f.metadata ++
    encU64 f.config ++ encList encStr f.rustflags ++
  encU64 f.deps.length ++
  (f.deps.map (fun d =>
    encU64 d.pkg_id ++ encStr d.name ++ encBool d.public ++
      encU64 d.fingerprint)).flatten

/-- `Fingerprint::get_hash`: finish a zero-keyed `SipHasher` over the
record's hash byte stream. -/
def Fingerprint.get_hash (f : Fingerprint) : Nat :=
  sipHash24 f.hashBytes

/-- Byte list of an ASCII/Unicode-codepoint string, for concrete
examples (all concrete strings used here are ASCII). -/
def strBytes (s : String) : Str := s.data.map (fun c => c.toNat)

/-- Reference definition, following the specification text: the single
combined hash input is the nine fields in the fixed order build-tool
version marker, feature-set string, target hash, path hash, profile
hash, local trigger list (each variant hashed by tag then payload, in
list order), metadata hash, config hash, compiler-flags list in
order. -/
def specCombinedInput (f : Fingerprint) : List Nat :=
  [encU64 f.rustc, encStr f.features, encU64 f.target, encU64 f.path,
   encU64 f.profile, encList encLocal f.local_, encU64 f.metadata,
   encU64 f.config, encList encStr f.rustflags].flatten

/-- Reference definition, following the specification text: after the
combined input comes the dependency count, then for each dependency in
stored order its identity, name, public-export flag and stored hash
value. -/
def specDepSection (f : Fingerprint) : List Nat :=
  encU64 f.deps.length ++
    (f.deps.map (fun d =>
      encU64 d.pkg_id ++ encStr d.name ++ encBool d.public ++
        encU64 d.fingerprint)).flatten

/-- Reference canonical hash, per the specification: SipHash with the
fixed zero key over the combined input followed by the dependency
section. -/
def specCanonicalHash (f : Fingerprint) : Nat :=
  sipHash24 (specCombinedInput f ++ specDepSection f)

/-- The fingerprint record of the repository's own golden test fixture
(`src/fingerprint.rs`, `FILE`). -/
def goldenFingerprint : Fingerprint where
  rustc := 5115962679530443550
  features := strBytes "[]"
  target := 16343417806311904822
  profile := 16668067249205866872
  path := 16210749786564134395
  deps := [⟨17671881657559241013, strBytes "winapi", false, 17268406378410745745⟩]
  local_ := [.CheckDepInfo [strBytes "debug\\.fingerprint\\home-ce6f4bfb9c7db56a\\dep-lib-home"]]
  rustflags := []
  metadata := 2057089606025779430
  config := 0

/-! ## The mark-propagation worklist (`clear_target`, `src/lib.rs` 358-377)

The code keeps a `Vec<bool>` of flags and a `Vec<usize>` worklist; it
pops from the end of the worklist and pushes by appending.  The model
represents the worklist reversed, so the popped element is the list
head and `extend_from_slice(&rev_deps[i])` prepends
`(rev_deps[i]).reverse`.  Indices are always in bounds in the program
(all vectors have one slot per loaded fingerprint); the model skips an
out-of-range index to stay total. -/

/-- The worklist loop: pop an index, skip it when already flagged,
otherwise flag it and push its reverse-dependency successors. -/
def flagLoop (rev : List (List Nat)) (flagged : List Bool) (stack : List Nat) :
    List Bool :=
  match stack with
  | [] => flagged
  | i :: rest =>
    if h : i < flagged.length then
      if flagged.get ⟨i, h⟩ then flagLoop rev flagged rest
      else flagLoop rev (flagged.set i true) ((rev.getD i []).reverse ++ rest)
    else flagLoop rev flagged rest
termination_by (flagged.count false, stack.length)
decreasing_by
  · exact Prod.Lex.right _ (Nat.lt_succ_self _)
  · refine Prod.Lex.left _ _ ?_
    rename_i hfalse
    have hf : flagged[i] = false := by
      simpa [List.get_eq_getElem, Bool.not_eq_true] using hfalse
    have hcount := List.count_set true false flagged i h
    have hmem : false ∈ flagged := hf ▸ List.getElem_mem h
    have hpos : 0 < List.count false flagged := List.count_pos_iff.mpr hmem
    simp [hf] at hcount
    omega
  · exact Prod.Lex.right _ (Nat.lt_succ_self _)

/-- One reverse-dependency edge step: `j` is among the reverse
dependents recorded for `i`. -/
def Step (rev : List (List Nat)) (i j : Nat) : Prop :=
  j ∈ rev.getD i []

/-- `y` is reachable from some seed by a (possibly empty) chain of
reverse-dependency edges. -/
def Reaches (rev : List (List Nat)) (seeds : List Nat) (y : Nat) : Prop :=
  ∃ x ∈ seeds, Relation.ReflTransGen (Step rev) x y

/-- The propagation phase as run by `clear_target`: start from all-false
flags over `n` nodes and the seed list as the initial worklist. -/
def propagate (rev : List (List Nat)) (n : Nat) (seeds : List Nat) : List Bool :=
  flagLoop rev (List.replicate n false) seeds.reverse

/-- Fuel-indexed variant of the worklist loop, used to state that the
loop reaches its result in finitely many iterations. -/
def flagLoopFuel (rev : List (List Nat)) :
    Nat → List Bool → List Nat → Option (List Bool)
  | 0, _, _ => none
  | _ + 1, flagged, [] => some flagged
  | fuel + 1, flagged, i :: rest =>
    if h : i < flagged.length then
      if flagged.get ⟨i, h⟩ then flagLoopFuel rev fuel flagged rest
      else flagLoopFuel rev fuel (flagged.set i true)
        ((rev.getD i []).reverse ++ rest)
    else flagLoopFuel rev fuel flagged rest

/-! ## Filename convention (`extract_meta_hash`, `src/lib.rs` 89-91)

`p.rsplitn(2, "-").next()` yields the substring after the last `-`
(the whole string when there is no `-`); the optional second item of
the iterator is the part before that separator. -/

/-- Both pieces of `rsplitn(2, "-")`: the suffix after the last `-`,
and, when a separator exists, the prefix before it. -/
def rsplit2 (s : List Char) : List Char × Option (List Char) :=
  match s.reverse.span (fun c => !(c == '-')) with
  | (sufRev, []) => (sufRev.reverse, none)
  | (sufRev, _ :: beforeRev) => (sufRev.reverse, some beforeRev.reverse)

/-- String-level view of `rsplit2`. -/
def rsplit2Str (p : String) : String × Option String :=
  (String.mk (rsplit2 p.data).1, (rsplit2 p.data).2.map String.mk)

/-- `extract_meta_hash`: the trailing segment after the last `-` of a
file stem (UTF-8 conversion always succeeds in the model, so the result
is always `some`). -/
def extract_meta_hash (p : String) : Option String :=
  some (rsplit2Str p).1

/-- The metadata hash embedded in a file stem, as used throughout
`clear_target`. -/
def metaHashOfStem (p : String) : String :=
  (rsplit2Str p).1

/-! ## Dependency-info first-path parsing (`read_first_dep`,
`src/lib.rs` 154-171) -/

/-- ASCII whitespace for `str::trim`. -/
def isWS (c : Char) : Bool :=
  c == ' ' || c == '\t' || c == '\n' || c == '\r'

/-- `str::trim`. -/
def trimChars (l : List Char) : List Char :=
  ((l.dropWhile isWS).reverse.dropWhile isWS).reverse

/-- Drop a trailing carriage return, as `str::lines` does. -/
def stripCRet (l : List Char) : List Char :=
  if l.getLast? == some '\r' then l.dropLast else l

/-- `file.lines().next()`: the first line, `none` for the empty
string. -/
def firstLine (cs : List Char) : Option (List Char) :=
  match cs with
  | [] => none
  | _ => some (stripCRet (cs.takeWhile (fun c => !(c == '\n'))))

/-- `line.splitn(2, ": ")` viewed as: the pieces before and after the
first occurrence of `": "`, or `none` when the separator is absent (in
which case the iterator's second `next()` returns `None`). -/
def splitOnce : List Char → Option (List Char × List Char)
  | [] => none
  | ':' :: ' ' :: rest => some ([], rest)
  | c :: rest => (splitOnce rest).map (fun p => (c :: p.1, p.2))

/-- `split(" ")`: split on every single space, keeping empty pieces. -/
def splitSp : List Char → List (List Char)
  | [] => [[]]
  | c :: rest =>
    if c == ' ' then [] :: splitSp rest
    else
      match splitSp rest with
      | [] => [[c]]
      | s :: ss => (c :: s) :: ss

/-- The accumulation loop of `read_first_dep`: while a piece ends in a
space, keep its front plus a space and continue; otherwise append the
piece and stop. -/
def buildPath : List (List Char) → List Char
  | [] => []
  | s :: rest =>
    if s.getLast? == some ' ' then (s.dropLast ++ [' ']) ++ buildPath rest
    else s

/-- `read_first_dep`: first line, part after `": "`, trimmed, then the
space-separated accumulation loop. -/
def read_first_dep (file : String) : Option String := do
  let line ← firstLine file.data
  let (_, after) ← splitOnce line
  pure (String.mk (buildPath (splitSp (trimChars after))))

/-! ## Feature-string serialization (`build_feature_string`,
`src/meta.rs` 100-117) -/

/-- `build_feature_string`: push `[`, then the first feature in double
quotes, then `, "{feature}"` for each later feature, then `]`. -/
def build_feature_string (features : List String) : String :=
  let s := "["
  let s :=
    match features with
    | [] => s
    | f :: rest =>
      rest.foldl (fun s f => s ++ ", " ++ "\"" ++ f ++ "\"")
        (s ++ "\"" ++ f ++ "\"")
  s ++ "]"

/-! ## Metadata model (`src/meta.rs`)

`HashMap`s with unique keys are modelled as association lists with
first-match lookup; maps built by repeated `insert` (where a later
insert overwrites) are modelled by last-match lookup. -/

/-- First-match association-list lookup (`HashMap::get` on maps with
unique keys). -/
def lookupA (l : List (String × α)) (k : String) : Option α :=
  (l.find? (fun p => p.1 == k)).map (·.2)

/-- Last-match lookup for maps built by repeated inserts where later
inserts overwrite earlier ones. -/
def lookupLast (l : List (String × α)) (k : String) : Option α :=
  ((l.filter (fun p => p.1 == k)).getLast?).map (·.2)

/-- The cache inventory: registry name to package-directory map and
repository name to revision map, each package mapped to its identity. -/
structure PackageSet where
  registry : List (String × List (String × String))
  git : List (String × List (String × String))

/-- The consumed dependency-resolution metadata: the inventory plus the
per-package-identity feature strings (byte lists, as compared against
`Fingerprint.features`). -/
structure Metadata where
  packages : PackageSet
  package_features : List (String × Str)

/-! ## Global-cache sweep (`clear_cargo_cache`, `src/lib.rs` 97-151) -/

/-- A path passed to `delete` by the global-cache sweep. -/
inductive CachePath where
  | gitTop (name : String)
  | regTop (name : String)
  | regChild (parent child : String)
deriving Repr, DecidableEq

/-- `clear_cargo_cache` over a modelled filesystem: the git-db tree and
the registry-cache tree are each a list of top-level entries, a name
with its child names.  For a git entry present in the inventory nothing
happens; an absent git entry is deleted whole.  For a registry entry
present in the inventory, exactly the children absent from its package
map are deleted; an absent registry entry is deleted whole. -/
def clear_cargo_cache (meta : Metadata)
    (gitEntries regEntries : List (String × List String)) : List CachePath :=
  (gitEntries.map (fun e =>
    match lookupA meta.packages.git e.1 with
    | some _ => []
    | none => [CachePath.gitTop e.1])).flatten ++
  (regEntries.map (fun e =>
    match lookupA meta.packages.registry e.1 with
    | some packages =>
      (e.2.filter (fun c => (lookupA packages c).isNone)).map
        (CachePath.regChild e.1)
    | none => [CachePath.regTop e.1])).flatten

/-! ## Package-origin resolution for dependency paths
(`get_dep_features`, `src/lib.rs` 173-208) -/

/-- Split a character list on every occurrence of a separator, keeping
empty pieces. -/
def splitChar (sep : Char) : List Char → List (List Char)
  | [] => [[]]
  | c :: rest =>
    if c == sep then [] :: splitChar sep rest
    else
      match splitChar sep rest with
      | [] => [[c]]
      | s :: ss => (c :: s) :: ss

/-- Path components of a path string: split on `/`, dropping empty and
`.` segments (the standard library's component normalization for the
paths that occur here). -/
def parsePath (s : String) : List String :=
  ((splitChar '/' s.data).map String.mk).filter
    (fun c => !(c == "") && !(c == "."))

/-- `Path::strip_prefix` on component lists. -/
def dropCargoHome (cargoHome p : List String) : Option (List String) :=
  if cargoHome.isPrefixOf p then some (p.drop cargoHome.length) else none

/-- `get_dep_features`: strip the cargo home, then resolve
`git/{_}/{repo}/{rev}` through the git inventory or
`registry/{_}/{registry}/{package}` through the registry inventory to a
package identity, and look up its feature string. -/
def get_dep_features (cargoHome : List String) (meta : Metadata)
    (dep : List String) : Option Str :=
  match dropCargoHome cargoHome dep with
  | none => none
  | some rest =>
    match rest with
    | x :: _ :: a :: b :: _ =>
      if x == "git" then
        (lookupA meta.packages.git a).bind (fun m =>
          (lookupA m b).bind (fun id => lookupA meta.package_features id))
      else if x == "registry" then
        (lookupA meta.packages.registry a).bind (fun m =>
          (lookupA m b).bind (fun id => lookupA meta.package_features id))
      else none
    | _ => none

/-! ## The target-directory pipeline (`clear_target`, `src/lib.rs`
232-406)

Filesystem entries are modelled by their name parts and content; the
content of a fingerprint record file is modelled by its parse outcome
(`serde_json` is an external collaborator). -/

/-- A plain file: stem, extension and text content. -/
structure DFile where
  stem : String
  ext : String
  content : String
deriving Repr, DecidableEq

/-- A file inside a fingerprint unit directory: extension plus the
outcome of parsing it as a `Fingerprint`. -/
structure FpFile where
  ext : String
  parse : Option Fingerprint
deriving Repr, DecidableEq

/-- A fingerprint unit directory: its name stem and contained files. -/
structure FpUnit where
  stem : String
  files : List FpFile
deriving Repr, DecidableEq

/-- The modelled `target/debug` tree. -/
structure TargetFs where
  topFiles : List String
  buildUnits : List (String × List DFile)
  depsFiles : List DFile
  fpUnits : List FpUnit

/-- A path passed to `delete` by the target-directory sweep. -/
inductive TPath where
  | top (name : String)
  | buildDirEnt (name : String)
  | depsDirEnt (stem ext : String)
  | fpDirEnt (stem : String)
deriving Repr, DecidableEq

/-- A loaded fingerprint node: its metadata hash and the record. -/
abbrev FpNode := String × Fingerprint

/-- Dep-info scanning (`src/lib.rs` 263-293): for every `.d` file, parse
the first source path; a file whose first line does not parse is a
fatal error; otherwise the file's stem hash goes to the outdated list
when the path resolves to no inventoried package, or to the feature map
with the resolved feature string. -/
def collectDepInfo (cargoHome : List String) (meta : Metadata) :
    List DFile → Except String (List String × List (String × Str))
  | [] => .ok ([], [])
  | f :: rest =>
    if f.ext == "d" then
      match read_first_dep f.content with
      | none => .error ("error parsing file: " ++ f.stem)
      | some dep =>
        match collectDepInfo cargoHome meta rest with
        | .error e => .error e
        | .ok (outdated, featMap) =>
          match get_dep_features cargoHome meta (parsePath dep) with
          | none => .ok (metaHashOfStem f.stem :: outdated, featMap)
          | some feat => .ok (outdated, (metaHashOfStem f.stem, feat) :: featMap)
    else collectDepInfo cargoHome meta rest

/-- The first file with extension `json` in a unit directory. -/
def firstJson (files : List FpFile) : Option FpFile :=
  files.find? (fun f => f.ext == "json")

/-- Fingerprint loading (`src/lib.rs` 298-334): for each unit directory
take the first `json` file; a file that fails to parse is a fatal
error; otherwise record the unit stem's metadata hash with the record. -/
def collectFingerprints : List FpUnit → Except String (List FpNode)
  | [] => .ok []
  | u :: rest =>
    match firstJson u.files with
    | none => collectFingerprints rest
    | some file =>
      match file.parse with
      | none => .error ("error parsing file: " ++ u.stem)
      | some f =>
        match collectFingerprints rest with
        | .error e => .error e
        | .ok l => .ok ((metaHashOfStem u.stem, f) :: l)

/-- The seed condition on one node (`src/lib.rs` 362-367): its metadata
hash is outdated, or the resolved feature string differs from the
stored one. -/
def seedCond (outdated : List String) (featMap : List (String × Str))
    (p : FpNode) : Bool :=
  outdated.contains p.1 ||
    ((lookupLast featMap p.1).map (fun feat => feat != p.2.features)).getD false

/-- Indices of the seeded nodes, in enumeration order. -/
def seedIdx (fps : List FpNode) (outdated : List String)
    (featMap : List (String × Str)) : List Nat :=
  (fps.enum.filter (fun p => seedCond outdated featMap p.2)).map (·.1)

/-- The fingerprint-hash lookup table (`src/lib.rs` 337-341): canonical
hash to index; on duplicate hashes the later insert wins, as for
`collect` into a `HashMap`. -/
def fingerprintHashIdx (fps : List FpNode) (h : Nat) : Option Nat :=
  (((fps.enum.map (fun p => (p.2.2.get_hash, p.1))).filter
    (fun q => q.1 == h)).getLast?).map (·.2)

/-- All reverse-dependency pushes in traversal order: for node `i` and
each of its dependencies resolving to index `dep`, the pair
`(dep, i)`. -/
def depEdgePairs (fps : List FpNode) : List (Nat × Nat) :=
  (fps.enum.map (fun p =>
    (p.2.2.deps.filterMap (fun d => fingerprintHashIdx fps d.fingerprint)).map
      (fun dep => (dep, p.1)))).flatten

/-- The reverse-dependency adjacency lists (`src/lib.rs` 344-353). -/
def revDeps (fps : List FpNode) : List (List Nat) :=
  (List.range fps.length).map (fun k =>
    ((depEdgePairs fps).filter (fun q => q.1 == k)).map (·.2))

/-- The final flag vector after seeding and propagation. -/
def finalFlags (fps : List FpNode) (outdated : List String)
    (featMap : List (String × Str)) : List Bool :=
  propagate (revDeps fps) fps.length (seedIdx fps outdated featMap)

/-- The metadata hashes of all flagged nodes (`src/lib.rs` 381-386),
with membership as the set semantics. -/
def metaHashesToRemove (fps : List FpNode) (outdated : List String)
    (featMap : List (String × Str)) : List String :=
  ((fps.enum.filter (fun p =>
    (finalFlags fps outdated featMap).getD p.1 false)).map (·.2.1))

/-- The final sweep (`src/lib.rs` 388-403): delete every entry of the
build, deps and fingerprint directories whose stem's trailing hash is in
the removal set. -/
def sweepTarget (removal : List String) (fs : TargetFs) : List TPath :=
  (fs.buildUnits.filter (fun u => removal.contains (metaHashOfStem u.1))).map
    (fun u => TPath.buildDirEnt u.1) ++
  (fs.depsFiles.filter (fun f => removal.contains (metaHashOfStem f.stem))).map
    (fun f => TPath.depsDirEnt f.stem f.ext) ++
  (fs.fpUnits.filter (fun u => removal.contains (metaHashOfStem u.stem))).map
    (fun u => TPath.fpDirEnt u.stem)

/-- `clear_target` over the modelled filesystem: delete the top-level
files except `.cargo-lock`, scan the dep-info files, load the
fingerprints, propagate staleness and sweep.  Any phase error aborts the
whole run. -/
def clear_target (cargoHome : List String) (meta : Metadata)
    (fs : TargetFs) : Except String (List TPath) :=
  let topDeletes := (fs.topFiles.filter (fun n => !(n == ".cargo-lock"))).map
    TPath.top
  match collectDepInfo cargoHome meta
      ((fs.buildUnits.map Prod.snd).flatten ++ fs.depsFiles) with
  | .error e => .error e
  | .ok (outdated, featMap) =>
    match collectFingerprints fs.fpUnits with
    | .error e => .error e
    | .ok fps =>
      .ok (topDeletes ++ sweepTarget (metaHashesToRemove fps outdated featMap) fs)

/-! ## Content-level staleness, for the order-independence analysis -/

/-- The seed condition, phrased on the node's content alone. -/
def ContentSeeded (outdated : List String) (featMap : List (String × Str))
    (p : FpNode) : Prop :=
  p.1 ∈ outdated ∨ ∃ feat, lookupLast featMap p.1 = some feat ∧ feat ≠ p.2.features

/-- A content-level reverse-dependency edge: `b` lists `a`'s canonical
hash among its dependencies. -/
def ContentEdge (a b : FpNode) : Prop :=
  ∃ d ∈ b.2.deps, d.fingerprint = a.2.get_hash

/-- Content-level reachability within a node list: a chain of edges
between loaded nodes from some seeded loaded node. -/
def ReachesContent (fps : List FpNode) (outdated : List String)
    (featMap : List (String × Str)) (y : FpNode) : Prop :=
  ∃ x ∈ fps, ContentSeeded outdated featMap x ∧
    Relation.ReflTransGen (fun a b => b ∈ fps ∧ ContentEdge a b) x y

/-! ## Concrete fixtures used in witnesses and counterexamples -/

/-- A minimal fingerprint record: zero hashes, empty feature string,
no dependencies, triggers or flags. -/
def Fz : Fingerprint := ⟨0, [], 0, 0, 0, [], [], [], 0, 0⟩

/-- A record with one dependency entry whose stored hash is `Fz`'s
canonical hash. -/
def Dz : Fingerprint := ⟨0, [], 0, 0, 0, [⟨0, [], false, Fz.get_hash⟩], [], [], 0, 0⟩

/-- Inventory holding one git repository `r` with one revision `a`. -/
def exMetaGit : Metadata := ⟨⟨[], [("r", [("a", "ida")])]⟩, []⟩

/-- An empty inventory. -/
def metaEmpty : Metadata := ⟨⟨[], []⟩, []⟩

/-- A target tree with one junk top-level file, one build unit whose
dep-info names a local source path, and one fingerprint unit. -/
def fsLocal : TargetFs :=
  ⟨["junk.txt"], [("u-x", [⟨"dep-lib-x", "d", "out: src/lib.rs"⟩])], [],
   [⟨"foo-x", [⟨"json", some Fz⟩]⟩]⟩

/-- A target tree whose only fingerprint record fails to parse. -/
def fsBad : TargetFs := ⟨[], [], [], [⟨"u-x", [⟨"json", none⟩]⟩]⟩

/-! # Theorems -/

/-! ## Worklist lemmas -/

theorem getD_set_true (l : List Bool) (i j : Nat) :
    ((l.set i true).getD j false = true) ↔
      ((i = j ∧ i < l.length) ∨ l.getD j false = true) := by
  rcases eq_or_ne i j with rfl | hne
  · by_cases h : i < l.length
    · simp [List.getD_eq_getElem?_getD, List.getElem?_set_self h, h]
    · simp [List.getD_eq_getElem?_getD, List.getElem?_set, h,
        List.getElem?_eq_none (Nat.le_of_not_lt h)]
  · simp [List.getD_eq_getElem?_getD, List.getElem?_set_ne hne, hne]

theorem flagLoop_nil (rev : List (List Nat)) (flagged : List Bool) :
    flagLoop rev flagged [] = flagged := by
  rw [flagLoop]

theorem flagLoop_cons_skip (rev : List (List Nat)) (flagged : List Bool)
    (i : Nat) (rest : List Nat) (h : i < flagged.length)
    (ht : flagged.get ⟨i, h⟩ = true) :
    flagLoop rev flagged (i :: rest) = flagLoop rev flagged rest := by
  have ht2 : flagged[i] = true := by simpa [List.get_eq_getElem] using ht
  rw [flagLoop]
  simp [h, ht2]

theorem flagLoop_cons_flag (rev : List (List Nat)) (flagged : List Bool)
    (i : Nat) (rest : List Nat) (h : i < flagged.length)
    (ht : ¬flagged.get ⟨i, h⟩ = true) :
    flagLoop rev flagged (i :: rest) =
      flagLoop rev (flagged.set i true) ((rev.getD i []).reverse ++ rest) := by
  have ht2 : flagged[i] = false := by
    simpa [List.get_eq_getElem, Bool.not_eq_true] using ht
  rw [flagLoop]
  simp [h, ht2, List.getD_eq_getElem?_getD, List.getElem?_eq_getElem h]

theorem flagLoop_cons_oob (rev : List (List Nat)) (flagged : List Bool)
    (i : Nat) (rest : List Nat) (h : ¬i < flagged.length) :
    flagLoop rev flagged (i :: rest) = flagLoop rev flagged rest := by
  rw [flagLoop]
  simp [h]

theorem flagLoop_length (rev : List (List Nat)) (flagged : List Bool)
    (stack : List Nat) :
    (flagLoop rev flagged stack).length = flagged.length := by
  induction flagged, stack using flagLoop.induct rev with
  | case1 flagged => simp [flagLoop_nil]
  | case2 flagged i rest h ht ih =>
    rw [flagLoop_cons_skip rev flagged i rest h ht]; exact ih
  | case3 flagged i rest h ht ih =>
    rw [flagLoop_cons_flag rev flagged i rest h ht]
    simpa [List.length_set] using ih
  | case4 flagged i rest h ih =>
    rw [flagLoop_cons_oob rev flagged i rest h]; exact ih

theorem flagLoop_mono (rev : List (List Nat)) (flagged : List Bool)
    (stack : List Nat) (y : Nat) (hy : flagged.getD y false = true) :
    (flagLoop rev flagged stack).getD y false = true := by
  induction flagged, stack using flagLoop.induct rev with
  | case1 flagged => simpa [flagLoop_nil] using hy
  | case2 flagged i rest h ht ih =>
    rw [flagLoop_cons_skip rev flagged i rest h ht]; exact ih hy
  | case3 flagged i rest h ht ih =>
    rw [flagLoop_cons_flag rev flagged i rest h ht]
    exact ih ((getD_set_true flagged i y).mpr (Or.inr hy))
  | case4 flagged i rest h ih =>
    rw [flagLoop_cons_oob rev flagged i rest h]; exact ih hy

theorem flagLoop_stack_flagged (rev : List (List Nat)) (flagged : List Bool)
    (stack : List Nat) (y : Nat) (hy : y ∈ stack) (hlen : y < flagged.length) :
    (flagLoop rev flagged stack).getD y false = true := by
  induction flagged, stack using flagLoop.induct rev with
  | case1 flagged => simp at hy
  | case2 flagged i rest h ht ih =>
    rw [flagLoop_cons_skip rev flagged i rest h ht]
    rcases List.mem_cons.mp hy with rfl | hy
    · exact flagLoop_mono rev flagged rest y
        (by simpa [List.getD_eq_getElem?_getD, List.getElem?_eq_getElem h]
          using ht)
    · exact ih hy hlen
  | case3 flagged i rest h ht ih =>
    rw [flagLoop_cons_flag rev flagged i rest h ht]
    rcases List.mem_cons.mp hy with rfl | hy
    · exact flagLoop_mono rev _ _ y ((getD_set_true flagged y y).mpr (Or.inl ⟨rfl, h⟩))
    · exact ih (List.mem_append_right _ hy) (by simpa [List.length_set] using hlen)
  | case4 flagged i rest h ih =>
    rw [flagLoop_cons_oob rev flagged i rest h]
    rcases List.mem_cons.mp hy with rfl | hy
    · exact absurd hlen h
    · exact ih hy hlen

theorem getD_replicate_false (n i : Nat) :
    (List.replicate n false).getD i false = false := by
  rcases Nat.lt_or_ge i n with h | h
  · simp [List.getD_eq_getElem?_getD, List.getElem?_replicate, h]
  · simp [List.getD_eq_getElem?_getD,
      List.getElem?_eq_none (by simpa using h : (List.replicate n false).length ≤ i)]

theorem flagLoop_sound (rev : List (List Nat)) (R : Nat → Prop)
    (hR : ∀ i j, R i → Step rev i j → R j) (flagged : List Bool)
    (stack : List Nat) (hflag : ∀ i, flagged.getD i false = true → R i)
    (hstack : ∀ i ∈ stack, R i) (y : Nat)
    (hy : (flagLoop rev flagged stack).getD y false = true) : R y := by
  induction flagged, stack using flagLoop.induct rev with
  | case1 flagged =>
    exact hflag y (by simpa [flagLoop_nil] using hy)
  | case2 flagged i rest h ht ih =>
    rw [flagLoop_cons_skip rev flagged i rest h ht] at hy
    exact ih hflag (fun j hj => hstack j (List.mem_cons_of_mem i hj)) hy
  | case3 flagged i rest h ht ih =>
    rw [flagLoop_cons_flag rev flagged i rest h ht] at hy
    refine ih ?_ ?_ hy
    · intro j hj
      rcases (getD_set_true flagged i j).mp hj with ⟨heq, _⟩ | hj
      · exact heq ▸ hstack i (List.mem_cons_self i rest)
      · exact hflag j hj
    · intro j hj
      rcases List.mem_append.mp hj with hj | hj
      · exact hR i j (hstack i (List.mem_cons_self i rest))
          (List.mem_reverse.mp hj)
      · exact hstack j (List.mem_cons_of_mem i hj)
  | case4 flagged i rest h ih =>
    rw [flagLoop_cons_oob rev flagged i rest h] at hy
    exact ih hflag (fun j hj => hstack j (List.mem_cons_of_mem i hj)) hy

theorem flagLoop_closed (rev : List (List Nat)) (flagged : List Bool)
    (stack : List Nat)
    (hrange : ∀ i, ∀ j ∈ rev.getD i [], j < flagged.length)
    (hinv : ∀ i, flagged.getD i false = true →
      ∀ j ∈ rev.getD i [], flagged.getD j false = true ∨ j ∈ stack)
    (y : Nat) (hy : (flagLoop rev flagged stack).getD y false = true)
    (j : Nat) (hj : j ∈ rev.getD y []) :
    (flagLoop rev flagged stack).getD j false = true := by
  induction flagged, stack using flagLoop.induct rev with
  | case1 flagged =>
    rw [flagLoop_nil] at hy ⊢
    rcases hinv y hy j hj with hfl | hstk
    · exact hfl
    · simp at hstk
  | case2 flagged i rest h ht ih =>
    rw [flagLoop_cons_skip rev flagged i rest h ht] at hy ⊢
    have hit : flagged.getD i false = true := by
      simpa [List.getD_eq_getElem?_getD, List.getElem?_eq_getElem h,
        List.get_eq_getElem] using ht
    refine ih hrange ?_ hy
    intro a ha b hb
    rcases hinv a ha b hb with hfl | hstk
    · exact Or.inl hfl
    · rcases List.mem_cons.mp hstk with rfl | hstk
      · exact Or.inl hit
      · exact Or.inr hstk
  | case3 flagged i rest h ht ih =>
    rw [flagLoop_cons_flag rev flagged i rest h ht] at hy ⊢
    refine ih (by simpa [List.length_set] using hrange) ?_ hy
    intro a ha b hb
    rcases (getD_set_true flagged i a).mp ha with ⟨heq, _⟩ | ha
    · exact heq ▸ Or.inr (List.mem_append_left _ (List.mem_reverse.mpr hb))
    · rcases hinv a ha b hb with hfl | hstk
      · exact Or.inl ((getD_set_true flagged i b).mpr (Or.inr hfl))
      · rcases List.mem_cons.mp hstk with rfl | hstk
        · exact Or.inl ((getD_set_true flagged b b).mpr (Or.inl ⟨rfl, h⟩))
        · exact Or.inr (List.mem_append_right _ hstk)
  | case4 flagged i rest h ih =>
    rw [flagLoop_cons_oob rev flagged i rest h] at hy ⊢
    refine ih hrange ?_ hy
    intro a ha b hb
    rcases hinv a ha b hb with hfl | hstk
    · exact Or.inl hfl
    · rcases List.mem_cons.mp hstk with rfl | hstk
      · exact absurd (hrange a b hb) h
      · exact Or.inr hstk

/-- Worklist closure: a node ends flagged iff it is reachable from a
seed over reverse edges. -/
theorem propagate_closure (rev : List (List Nat)) (n : Nat) (seeds : List Nat)
    (hseed : ∀ i ∈ seeds, i < n)
    (hrev : ∀ i, ∀ j ∈ rev.getD i [], j < n) (y : Nat) :
    (propagate rev n seeds).getD y false = true ↔ Reaches rev seeds y := by
  constructor
  · intro hy
    refine flagLoop_sound rev (Reaches rev seeds) ?_ _ _ ?_ ?_ y hy
    · rintro i j ⟨x, hx, hpath⟩ hstep
      exact ⟨x, hx, hpath.tail hstep⟩
    · intro i hi
      rw [getD_replicate_false] at hi
      exact absurd hi (by simp)
    · intro i hi
      exact ⟨i, List.mem_reverse.mp hi, Relation.ReflTransGen.refl⟩
  · rintro ⟨x, hx, hpath⟩
    induction hpath with
    | refl =>
      exact flagLoop_stack_flagged rev _ _ x (List.mem_reverse.mpr hx)
        (by simpa using hseed x hx)
    | @tail b c hab hbc ih =>
      refine flagLoop_closed rev _ _ ?_ ?_ b ih c hbc
      · intro i j hj
        simpa using hrev i j hj
      · intro i hi j hj
        rw [getD_replicate_false] at hi
        exact absurd hi (by simp)


theorem flagLoopFuel_succ (rev : List (List Nat)) (k : Nat) :
    ∀ (flagged : List Bool) (stack : List Nat) (r : List Bool),
      flagLoopFuel rev k flagged stack = some r →
      flagLoopFuel rev (k + 1) flagged stack = some r := by
  induction k with
  | zero => intro flagged stack r h; simp [flagLoopFuel] at h
  | succ k ih =>
    intro flagged stack r h
    match stack with
    | [] => simpa [flagLoopFuel] using h
    | i :: rest =>
      by_cases hlt : i < flagged.length
      · by_cases hv : flagged.get ⟨i, hlt⟩ = true
        · rw [flagLoopFuel] at h ⊢
          simp only [hlt, hv, dif_pos, if_pos] at h ⊢
          exact ih _ _ _ h
        · rw [flagLoopFuel] at h ⊢
          simp only [hlt, hv, dif_pos, if_neg] at h ⊢
          exact ih _ _ _ h
      · rw [flagLoopFuel] at h ⊢
        simp only [hlt, dif_neg, not_false_iff] at h ⊢
        exact ih _ _ _ h

theorem flagLoop_reaches_fuel (rev : List (List Nat)) (flagged : List Bool)
    (stack : List Nat) :
    ∃ k, flagLoopFuel rev k flagged stack = some (flagLoop rev flagged stack) := by
  induction flagged, stack using flagLoop.induct rev with
  | case1 flagged =>
    exact ⟨1, by simp [flagLoopFuel, flagLoop_nil]⟩
  | case2 flagged i rest h ht ih =>
    obtain ⟨k, hk⟩ := ih
    refine ⟨k + 1, ?_⟩
    rw [flagLoop_cons_skip rev flagged i rest h ht, flagLoopFuel]
    simp only [h, ht, dif_pos, if_pos]
    exact hk
  | case3 flagged i rest h ht ih =>
    obtain ⟨k, hk⟩ := ih
    refine ⟨k + 1, ?_⟩
    rw [flagLoop_cons_flag rev flagged i rest h ht, flagLoopFuel]
    simp only [h, ht, dif_pos, if_neg]
    exact hk
  | case4 flagged i rest h ih =>
    obtain ⟨k, hk⟩ := ih
    refine ⟨k + 1, ?_⟩
    rw [flagLoop_cons_oob rev flagged i rest h, flagLoopFuel]
    simp only [h, dif_neg, not_false_iff]
    exact hk


/-- Claim C1: `Fingerprint::get_hash` computes the canonical 64-bit
hash by feeding, in the fixed order and as one combined input, the
rustc marker, feature string, target, path and profile hashes, the
local trigger list (each variant by tag then payload), the metadata and
config hashes and the compiler-flags list, then the dependency count
and each dependency's identity, name, public flag and stored hash, all
finalized with zero-keyed SipHash; for every record the hash equals the
reference definition bit for bit. -/
theorem fingerprint_canonical_hash_spec (f : Fingerprint) :
    f.get_hash = specCanonicalHash f := by
  simp [Fingerprint.get_hash, specCanonicalHash, Fingerprint.hashBytes,
    specCombinedInput, specDepSection, List.append_assoc]

set_option maxRecDepth 10000 in
/-- Anchor: the model reproduces the repository's own golden test value
for the x86_64-linux fixture, validating the SipHash and encoding
model bit for bit. -/
theorem golden_fixture_hash :
    goldenFingerprint.get_hash = 16826414366161678886 := by decide

/-- Claim C2: mark-propagation closure — after the worklist loop of
`clear_target` finishes, a node is flagged iff a (possibly empty) path
of reverse edges connects some seeded node to it; a node with no such
path stays unflagged. -/
theorem clear_target_mark_closure (rev : List (List Nat)) (n : Nat)
    (seeds : List Nat) (hseed : ∀ i ∈ seeds, i < n)
    (hrev : ∀ i, ∀ j ∈ rev.getD i [], j < n) (y : Nat) :
    (propagate rev n seeds).getD y false = true ↔ Reaches rev seeds y :=
  propagate_closure rev n seeds hseed hrev y

/-- Witness for C2 at a concrete three-node graph. -/
theorem clear_target_mark_closure_witness :
    (∀ i ∈ [0], i < 3) ∧
    (∀ i, ∀ j ∈ ([[1], [], []] : List (List Nat)).getD i [], j < 3) ∧
    ((propagate [[1], [], []] 3 [0]).getD 1 false = true ↔
      Reaches [[1], [], []] [0] 1) := by
  have hrev : ∀ i, ∀ j ∈ ([[1], [], []] : List (List Nat)).getD i [], j < 3 := by
    intro i j hj
    match i with
    | 0 => simp at hj; omega
    | 1 => simp at hj
    | 2 => simp at hj
    | n + 3 => simp [List.getD] at hj
  exact ⟨by decide, hrev,
    clear_target_mark_closure [[1], [], []] 3 [0] (by decide) hrev 1⟩

/-- Claim C8: termination of propagation — for every finite node set,
reverse-adjacency relation and seed list, the worklist loop reaches its
result within some finite fuel. -/
theorem clear_target_worklist_terminates (rev : List (List Nat))
    (flagged : List Bool) (stack : List Nat) :
    ∃ k, flagLoopFuel rev k flagged stack = some (flagLoop rev flagged stack) :=
  flagLoop_reaches_fuel rev flagged stack

theorem foldl_quote_go (l : List String) :
    ∀ acc : String,
      l.foldl (fun s f => s ++ ", " ++ "\"" ++ f ++ "\"") acc =
        String.intercalate.go acc ", " (l.map (fun f => "\"" ++ f ++ "\"")) := by
  induction l with
  | nil => intro acc; rfl
  | cons g l ih =>
    intro acc
    simp only [List.foldl_cons, List.map_cons, String.intercalate.go]
    rw [ih]
    congr 1
    simp only [String.append_assoc]

theorem intercalate_go_prepend (l : List String) :
    ∀ a b s : String,
      String.intercalate.go (a ++ b) s l = a ++ String.intercalate.go b s l := by
  induction l with
  | nil => intro a b s; rfl
  | cons c l ih =>
    intro a b s
    simp only [String.intercalate.go]
    have h2 : a ++ b ++ s ++ c = a ++ (b ++ s ++ c) := by
      simp only [String.append_assoc]
    rw [h2, ih]

/-- Claim C6: `build_feature_string` produces the bracketed,
comma-space-separated, double-quoted serialization, and the empty list
yields exactly the two-character string of brackets. -/
theorem build_feature_string_format (features : List String) :
    build_feature_string features =
      "[" ++ String.intercalate ", "
        (features.map (fun f => "\"" ++ f ++ "\"")) ++ "]" ∧
    build_feature_string [] = "[]" := by
  constructor
  · match features with
    | [] => rfl
    | f :: rest =>
      show (rest.foldl (fun s f => s ++ ", " ++ "\"" ++ f ++ "\"")
          ("[" ++ "\"" ++ f ++ "\"")) ++ "]" = _
      rw [foldl_quote_go]
      simp only [List.map_cons, String.intercalate]
      have h2 : "[" ++ "\"" ++ f ++ "\"" = "[" ++ ("\"" ++ f ++ "\"") := by
        simp only [String.append_assoc]
      rw [h2, intercalate_go_prepend]
  · rfl


theorem takeWhile_ndash (A B : List Char)
    (hA : ∀ c ∈ A, (!(c == '-')) = true) :
    (A ++ '-' :: B).takeWhile (fun c => !(c == '-')) = A := by
  induction A with
  | nil => simp [List.takeWhile_cons]
  | cons a A ih =>
    have ha := hA a (List.mem_cons_self a A)
    simp only [List.cons_append, List.takeWhile_cons, ha, if_true]
    rw [ih (fun c hc => hA c (List.mem_cons_of_mem a hc))]

theorem dropWhile_ndash (A B : List Char)
    (hA : ∀ c ∈ A, (!(c == '-')) = true) :
    (A ++ '-' :: B).dropWhile (fun c => !(c == '-')) = '-' :: B := by
  induction A with
  | nil => simp [List.dropWhile_cons]
  | cons a A ih =>
    have ha := hA a (List.mem_cons_self a A)
    simp only [List.cons_append, List.dropWhile_cons, ha, if_true]
    exact ih (fun c hc => hA c (List.mem_cons_of_mem a hc))

/-- Claim C9: filename round-trip — for any name (hyphens allowed) and
non-empty hyphen-free hash, splitting the constructed stem on the last
separator recovers exactly the hash, and the remaining piece is exactly
the name. -/
theorem extract_meta_hash_roundtrip (name hash : String)
    (hne : hash ≠ "") (hdash : ∀ c ∈ hash.data, c ≠ '-') :
    extract_meta_hash (name ++ "-" ++ hash) = some hash ∧
    (rsplit2Str (name ++ "-" ++ hash)).2 = some name := by
  have hdata : (name ++ "-" ++ hash).data = name.data ++ '-' :: hash.data := by
    simp [String.data_append]
  have hrev : (name ++ "-" ++ hash).data.reverse =
      hash.data.reverse ++ '-' :: name.data.reverse := by
    simp [hdata]
  have hall : ∀ c ∈ hash.data.reverse, (!(c == '-')) = true := by
    intro c hc
    simpa using hdash c (List.mem_reverse.mp hc)
  have hspan : (name.data ++ '-' :: hash.data).reverse.span (fun c => !(c == '-')) =
      (hash.data.reverse, '-' :: name.data.reverse) := by
    rw [show (name.data ++ '-' :: hash.data).reverse =
        hash.data.reverse ++ '-' :: name.data.reverse by simp,
      List.span_eq_take_drop, takeWhile_ndash _ _ hall, dropWhile_ndash _ _ hall]
  have hsplit : rsplit2 (name.data ++ '-' :: hash.data) =
      (hash.data, some name.data) := by
    rw [rsplit2, hspan]
    simp
  constructor
  · simp only [extract_meta_hash, rsplit2Str, hdata, hsplit, Option.some.injEq]
  · simp only [rsplit2Str, hdata, hsplit]
    cases name
    rfl

theorem extract_meta_hash_roundtrip_witness :
    ("1a2b" : String) ≠ "" ∧ (∀ c ∈ ("1a2b" : String).data, c ≠ '-') ∧
    (extract_meta_hash ("foo-bar" ++ "-" ++ "1a2b") = some "1a2b" ∧
      (rsplit2Str ("foo-bar" ++ "-" ++ "1a2b")).2 = some "foo-bar") :=
  ⟨by decide, by decide,
    extract_meta_hash_roundtrip "foo-bar" "1a2b" (by decide) (by decide)⟩

/-- Claim C3 evaluation: on a first line whose first source path
contains an escaped space, `read_first_dep` returns only the piece
before the escape, with the trailing backslash — not the complete
path.  The escape branch compares against a space, which a piece of
`split(" ")` can never end with, so it is unreachable; the code's own
comment says escaped spaces are handled. -/
theorem read_first_dep_escaped_space :
    read_first_dep "out: a\\ b.rs c.rs" = some "a\\" := by decide


theorem mem_gitMatch (o : Option (List (String × String))) (x : CachePath)
    (p : CachePath) :
    p ∈ (match o with
      | some _ => ([] : List CachePath)
      | none => [x]) ↔ (o = none ∧ p = x) := by
  cases o <;> simp

theorem mem_regMatch (o : Option (List (String × String)))
    (e : String × List String) (p : CachePath) :
    p ∈ (match o with
      | some packages =>
        (e.2.filter (fun c => (lookupA packages c).isNone)).map
          (CachePath.regChild e.1)
      | none => [CachePath.regTop e.1]) ↔
      ((∃ packages, o = some packages ∧
        ∃ c ∈ e.2, lookupA packages c = none ∧ p = CachePath.regChild e.1 c) ∨
       (o = none ∧ p = CachePath.regTop e.1)) := by
  cases o with
  | none => simp
  | some packages =>
    simp [List.mem_filter, Option.isNone_iff_eq_none]
    constructor
    · rintro ⟨c, ⟨hc, hnone⟩, hp⟩
      exact ⟨c, hc, hnone, hp.symm⟩
    · rintro ⟨c, hc, hnone, hp⟩
      exact ⟨c, ⟨hc, hnone⟩, hp.symm⟩

theorem mem_clear_cargo_cache (meta : Metadata)
    (gitE regE : List (String × List String)) (p : CachePath) :
    p ∈ clear_cargo_cache meta gitE regE ↔
      ((∃ e ∈ gitE, lookupA meta.packages.git e.1 = none ∧ p = .gitTop e.1) ∨
       (∃ e ∈ regE, ∃ packages,
          lookupA meta.packages.registry e.1 = some packages ∧
          ∃ c ∈ e.2, lookupA packages c = none ∧ p = .regChild e.1 c) ∨
       (∃ e ∈ regE, lookupA meta.packages.registry e.1 = none ∧
          p = .regTop e.1)) := by
  simp only [clear_cargo_cache, List.mem_append, List.mem_flatten,
    List.mem_map]
  constructor
  · rintro (⟨l, ⟨e, he, rfl⟩, hp⟩ | ⟨l, ⟨e, he, rfl⟩, hp⟩)
    · rw [mem_gitMatch] at hp
      exact Or.inl ⟨e, he, hp.1, hp.2⟩
    · rw [mem_regMatch] at hp
      rcases hp with ⟨packages, ho, c, hc, hnone, rfl⟩ | ⟨ho, rfl⟩
      · exact Or.inr (Or.inl ⟨e, he, packages, ho, c, hc, hnone, rfl⟩)
      · exact Or.inr (Or.inr ⟨e, he, ho, rfl⟩)
  · rintro (⟨e, he, hnone, rfl⟩ | ⟨e, he, packages, ho, c, hc, hnone, rfl⟩ |
      ⟨e, he, hnone, rfl⟩)
    · exact Or.inl ⟨_, ⟨e, he, rfl⟩, (mem_gitMatch _ _ _).mpr ⟨hnone, rfl⟩⟩
    · exact Or.inr ⟨_, ⟨e, he, rfl⟩,
        (mem_regMatch _ _ _).mpr (Or.inl ⟨packages, ho, c, hc, hnone, rfl⟩)⟩
    · exact Or.inr ⟨_, ⟨e, he, rfl⟩,
        (mem_regMatch _ _ _).mpr (Or.inr ⟨hnone, rfl⟩)⟩


theorem mem_seedIdx (fps : List FpNode) (o : List String)
    (fm : List (String × Str)) (i : Nat) :
    i ∈ seedIdx fps o fm ↔
      ∃ h : i < fps.length, seedCond o fm (fps.get ⟨i, h⟩) = true := by
  simp only [seedIdx, List.mem_map, List.mem_filter,
    List.mem_enum_iff_getElem?]
  constructor
  · rintro ⟨⟨j, p⟩, ⟨hget, hcond⟩, rfl⟩
    have hlt : j < fps.length := by
      by_contra hge
      rw [List.getElem?_eq_none (Nat.le_of_not_lt hge)] at hget
      exact Option.noConfusion hget
    refine ⟨hlt, ?_⟩
    have : fps[j] = p := by
      have := List.getElem?_eq_getElem hlt
      rw [this] at hget
      exact Option.some.inj hget
    simpa [List.get_eq_getElem, this] using hcond
  · rintro ⟨h, hcond⟩
    exact ⟨(i, fps.get ⟨i, h⟩),
      ⟨by simp [List.getElem?_eq_getElem h, List.get_eq_getElem], hcond⟩, rfl⟩

theorem seedIdx_lt (fps : List FpNode) (o : List String)
    (fm : List (String × Str)) (i : Nat) (hi : i ∈ seedIdx fps o fm) :
    i < fps.length := by
  rcases (mem_seedIdx fps o fm i).mp hi with ⟨h, _⟩
  exact h

theorem seedCond_iff_ContentSeeded (o : List String)
    (fm : List (String × Str)) (p : FpNode) :
    seedCond o fm p = true ↔ ContentSeeded o fm p := by
  cases h : lookupLast fm p.1 with
  | none =>
    simp [seedCond, ContentSeeded, h]
  | some feat =>
    simp [seedCond, ContentSeeded, h, bne_iff_ne]

theorem fingerprintHashIdx_some (fps : List FpNode) (h : Nat) (i : Nat)
    (hidx : fingerprintHashIdx fps h = some i) :
    ∃ hi : i < fps.length, (fps.get ⟨i, hi⟩).2.get_hash = h := by
  simp only [fingerprintHashIdx, Option.map_eq_some'] at hidx
  rcases hidx with ⟨⟨h2, j⟩, hlast, rfl⟩
  have hmem := List.mem_of_getLast?_eq_some hlast
  rw [List.mem_filter] at hmem
  rcases hmem with ⟨hmem, heq⟩
  rw [List.mem_map] at hmem
  rcases hmem with ⟨⟨k, p⟩, hk, hpair⟩
  rw [List.mem_enum_iff_getElem?] at hk
  rcases Prod.mk.injEq .. |>.mp hpair with ⟨hh2, hkj⟩
  dsimp only at hk hh2 hkj
  have hlt : k < fps.length := by
    by_contra hge
    rw [List.getElem?_eq_none (Nat.le_of_not_lt hge)] at hk
    exact Option.noConfusion hk
  have hpk : fps[k] = p := by
    rw [List.getElem?_eq_getElem hlt] at hk
    exact Option.some.inj hk
  subst hkj
  refine ⟨hlt, ?_⟩
  have hhh : h2 = h := by simpa using heq
  simp only [List.get_eq_getElem, hpk]
  exact hh2.trans hhh

theorem fingerprintHashIdx_isSome (fps : List FpNode) (h : Nat) (i : Nat)
    (hi : i < fps.length) (hh : (fps.get ⟨i, hi⟩).2.get_hash = h) :
    ∃ j, fingerprintHashIdx fps h = some j := by
  have hmem : ((h, i) : Nat × Nat) ∈
      (fps.enum.map (fun p => (p.2.2.get_hash, p.1))).filter
        (fun q => q.1 == h) := by
    rw [List.mem_filter]
    refine ⟨?_, by simp⟩
    rw [List.mem_map]
    refine ⟨(i, fps.get ⟨i, hi⟩), ?_, ?_⟩
    · rw [List.mem_enum_iff_getElem?]
      simp [List.getElem?_eq_getElem hi, List.get_eq_getElem]
    · simpa [List.get_eq_getElem] using hh
  cases hlast : ((fps.enum.map (fun p => (p.2.2.get_hash, p.1))).filter
      (fun q => q.1 == h)).getLast? with
  | none =>
    rw [List.getLast?_eq_none_iff] at hlast
    rw [hlast] at hmem
    exact absurd hmem (List.not_mem_nil _)
  | some q =>
    exact ⟨q.2, by simp [fingerprintHashIdx, hlast]⟩

theorem fingerprintHashIdx_eq (fps : List FpNode)
    (hdist : (fps.map (fun p => p.2.get_hash)).Nodup) (h : Nat) (i : Nat) :
    fingerprintHashIdx fps h = some i ↔
      ∃ hi : i < fps.length, (fps.get ⟨i, hi⟩).2.get_hash = h := by
  constructor
  · exact fingerprintHashIdx_some fps h i
  · rintro ⟨hi, hh⟩
    obtain ⟨j, hj⟩ := fingerprintHashIdx_isSome fps h i hi hh
    obtain ⟨hjlt, hjh⟩ := fingerprintHashIdx_some fps h j hj
    have hmapi : i < (fps.map (fun p => p.2.get_hash)).length := by
      simpa using hi
    have hmapj : j < (fps.map (fun p => p.2.get_hash)).length := by
      simpa using hjlt
    have heq : (fps.map (fun p => p.2.get_hash))[j] =
        (fps.map (fun p => p.2.get_hash))[i] := by
      simp only [List.getElem_map]
      simp only [List.get_eq_getElem] at hjh hh
      rw [hjh, hh]
    have := (hdist.getElem_inj_iff).mp heq
    subst this
    exact hj


theorem mem_depEdgePairs (fps : List FpNode) (i j : Nat) :
    (i, j) ∈ depEdgePairs fps ↔
      ∃ hj : j < fps.length, ∃ d ∈ (fps.get ⟨j, hj⟩).2.deps,
        fingerprintHashIdx fps d.fingerprint = some i := by
  simp only [depEdgePairs, List.mem_flatten, List.mem_map]
  constructor
  · rintro ⟨l, ⟨⟨k, p⟩, hk, rfl⟩, hmem⟩
    rw [List.mem_enum_iff_getElem?] at hk
    dsimp only at hk hmem
    rw [List.mem_map] at hmem
    rcases hmem with ⟨dep, hdep, hpair⟩
    rcases Prod.mk.injEq .. |>.mp hpair with ⟨hdi, hkj⟩
    subst hdi hkj
    have hlt : k < fps.length := by
      by_contra hge
      rw [List.getElem?_eq_none (Nat.le_of_not_lt hge)] at hk
      exact Option.noConfusion hk
    have hpk : fps[k] = p := by
      rw [List.getElem?_eq_getElem hlt] at hk
      exact Option.some.inj hk
    rw [List.mem_filterMap] at hdep
    rcases hdep with ⟨d, hd, hres⟩
    refine ⟨hlt, d, ?_, hres⟩
    simpa [List.get_eq_getElem, hpk] using hd
  · rintro ⟨hj, d, hd, hres⟩
    refine ⟨((fps.get ⟨j, hj⟩).2.deps.filterMap
        (fun d => fingerprintHashIdx fps d.fingerprint)).map (fun dep => (dep, j)),
      ⟨(j, fps.get ⟨j, hj⟩), ?_, rfl⟩, ?_⟩
    · rw [List.mem_enum_iff_getElem?]
      simp [List.getElem?_eq_getElem hj, List.get_eq_getElem]
    · rw [List.mem_map]
      refine ⟨i, ?_, rfl⟩
      rw [List.mem_filterMap]
      exact ⟨d, hd, hres⟩

theorem step_revDeps (fps : List FpNode) (i j : Nat) :
    Step (revDeps fps) i j ↔ (i, j) ∈ depEdgePairs fps := by
  unfold Step revDeps
  by_cases hi : i < fps.length
  · rw [List.getD_eq_getElem?_getD, List.getElem?_map, List.getElem?_range hi]
    simp only [Option.map_some', Option.getD_some, List.mem_map, List.mem_filter]
    constructor
    · rintro ⟨⟨a, b⟩, ⟨hmem, ha⟩, hb⟩
      dsimp only at ha hb
      have ha2 : a = i := by simpa using ha
      subst ha2 hb
      exact hmem
    · intro hmem
      exact ⟨(i, j), ⟨hmem, by simp⟩, rfl⟩
  · rw [List.getD_eq_getElem?_getD,
      List.getElem?_eq_none (by simpa using Nat.le_of_not_lt hi)]
    simp only [Option.getD_none, List.not_mem_nil, false_iff]
    intro hmem
    rcases (mem_depEdgePairs fps i j).mp hmem with ⟨hj, d, hd, hres⟩
    rcases fingerprintHashIdx_some fps d.fingerprint i hres with ⟨hilt, _⟩
    exact hi hilt

theorem revDeps_lt (fps : List FpNode) (a b : Nat)
    (hb : b ∈ (revDeps fps).getD a []) : b < fps.length := by
  have : (a, b) ∈ depEdgePairs fps := (step_revDeps fps a b).mp hb
  rcases (mem_depEdgePairs fps a b).mp this with ⟨hj, _⟩
  exact hj

theorem step_contentEdge (fps : List FpNode)
    (hdist : (fps.map (fun p => p.2.get_hash)).Nodup) (i j : Nat) :
    Step (revDeps fps) i j ↔
      ∃ (hi : i < fps.length) (hj : j < fps.length),
        ContentEdge (fps.get ⟨i, hi⟩) (fps.get ⟨j, hj⟩) := by
  rw [step_revDeps, mem_depEdgePairs]
  constructor
  · rintro ⟨hj, d, hd, hres⟩
    obtain ⟨hi, hh⟩ := fingerprintHashIdx_some fps d.fingerprint i hres
    exact ⟨hi, hj, d, hd, hh.symm⟩
  · rintro ⟨hi, hj, d, hd, hdf⟩
    refine ⟨hj, d, hd, ?_⟩
    rw [fingerprintHashIdx_eq fps hdist]
    exact ⟨hi, hdf.symm⟩


theorem mem_metaHashesToRemove (fps : List FpNode) (o : List String)
    (fm : List (String × Str)) (m : String) :
    m ∈ metaHashesToRemove fps o fm ↔
      ∃ i, ∃ hi : i < fps.length,
        (finalFlags fps o fm).getD i false = true ∧
        (fps.get ⟨i, hi⟩).1 = m := by
  simp only [metaHashesToRemove, List.mem_map, List.mem_filter,
    List.mem_enum_iff_getElem?]
  constructor
  · rintro ⟨⟨k, p⟩, ⟨hk, hflag⟩, hm⟩
    dsimp only at hk hflag hm
    have hlt : k < fps.length := by
      by_contra hge
      rw [List.getElem?_eq_none (Nat.le_of_not_lt hge)] at hk
      exact Option.noConfusion hk
    have hpk : fps[k] = p := by
      rw [List.getElem?_eq_getElem hlt] at hk
      exact Option.some.inj hk
    exact ⟨k, hlt, hflag, by simp [List.get_eq_getElem, hpk, hm]⟩
  · rintro ⟨i, hi, hflag, hm⟩
    refine ⟨(i, fps.get ⟨i, hi⟩), ⟨?_, hflag⟩, hm⟩
    simp [List.getElem?_eq_getElem hi, List.get_eq_getElem]

theorem contentPath_mem (fps : List FpNode) (x y : FpNode)
    (hpath : Relation.ReflTransGen
      (fun a b => b ∈ fps ∧ ContentEdge a b) x y)
    (hx : x ∈ fps) : y ∈ fps := by
  induction hpath with
  | refl => exact hx
  | tail _ hbc _ => exact hbc.1

theorem indexReach_to_content (fps : List FpNode) (o : List String)
    (fm : List (String × Str))
    (hdist : (fps.map (fun p => p.2.get_hash)).Nodup) (i : Nat)
    (hr : Reaches (revDeps fps) (seedIdx fps o fm) i)
    (hi : i < fps.length) :
    ReachesContent fps o fm (fps.get ⟨i, hi⟩) := by
  rcases hr with ⟨x, hx, hpath⟩
  rcases (mem_seedIdx fps o fm x).mp hx with ⟨hxlt, hxcond⟩
  refine ⟨fps.get ⟨x, hxlt⟩, List.get_mem fps x hxlt,
    (seedCond_iff_ContentSeeded o fm _).mp hxcond, ?_⟩
  clear hx hxcond
  induction hpath with
  | refl => exact Relation.ReflTransGen.refl
  | @tail b c hab hbc ih =>
    rcases (step_contentEdge fps hdist b c).mp hbc with ⟨hb, hc, hedge⟩
    exact Relation.ReflTransGen.tail (ih hb) ⟨List.get_mem fps c hi, hedge⟩


theorem contentReach_to_index (fps : List FpNode) (o : List String)
    (fm : List (String × Str))
    (hdist : (fps.map (fun p => p.2.get_hash)).Nodup) (x y : FpNode)
    (hx : x ∈ fps) (hxseed : ContentSeeded o fm x)
    (hpath : Relation.ReflTransGen
      (fun a b => b ∈ fps ∧ ContentEdge a b) x y) :
    ∀ iy, ∀ hiy : iy < fps.length, fps.get ⟨iy, hiy⟩ = y →
      Reaches (revDeps fps) (seedIdx fps o fm) iy := by
  induction hpath with
  | refl =>
    intro iy hiy hget
    have hcond : seedCond o fm (fps.get ⟨iy, hiy⟩) = true :=
      (seedCond_iff_ContentSeeded o fm _).mpr (hget ▸ hxseed)
    exact ⟨iy, (mem_seedIdx fps o fm iy).mpr ⟨hiy, hcond⟩,
      Relation.ReflTransGen.refl⟩
  | @tail w y hxw hwy ih =>
    intro iy hiy hget
    have hwmem : w ∈ fps := contentPath_mem fps x w hxw hx
    rcases List.mem_iff_getElem.mp hwmem with ⟨iw, hiw, hgw⟩
    rcases ih iw hiw (by simpa [List.get_eq_getElem] using hgw) with
      ⟨x0, hx0, hpath0⟩
    refine ⟨x0, hx0, hpath0.tail ?_⟩
    rw [step_contentEdge fps hdist]
    refine ⟨hiw, hiy, ?_⟩
    have h1 : fps.get ⟨iw, hiw⟩ = w := by
      simpa [List.get_eq_getElem] using hgw
    rw [h1, hget]
    exact hwy.2

theorem finalFlags_iff_reachesContent (fps : List FpNode) (o : List String)
    (fm : List (String × Str))
    (hdist : (fps.map (fun p => p.2.get_hash)).Nodup) (i : Nat)
    (hi : i < fps.length) :
    (finalFlags fps o fm).getD i false = true ↔
      ReachesContent fps o fm (fps.get ⟨i, hi⟩) := by
  rw [finalFlags, propagate_closure (revDeps fps) fps.length
    (seedIdx fps o fm) (seedIdx_lt fps o fm) (revDeps_lt fps) i]
  constructor
  · intro hr
    exact indexReach_to_content fps o fm hdist i hr hi
  · rintro ⟨x, hxmem, hxseed, hpath⟩
    exact contentReach_to_index fps o fm hdist x _ hxmem hxseed hpath i hi rfl

theorem metaHashesToRemove_content (fps : List FpNode) (o : List String)
    (fm : List (String × Str))
    (hdist : (fps.map (fun p => p.2.get_hash)).Nodup) (m : String) :
    m ∈ metaHashesToRemove fps o fm ↔
      ∃ y ∈ fps, y.1 = m ∧ ReachesContent fps o fm y := by
  rw [mem_metaHashesToRemove]
  constructor
  · rintro ⟨i, hi, hflag, hm⟩
    exact ⟨fps.get ⟨i, hi⟩, List.get_mem fps i hi, hm,
      (finalFlags_iff_reachesContent fps o fm hdist i hi).mp hflag⟩
  · rintro ⟨y, hy, hm, hr⟩
    rcases List.mem_iff_getElem.mp hy with ⟨i, hi, hgi⟩
    have hgy : fps.get ⟨i, hi⟩ = y := by simpa [List.get_eq_getElem] using hgi
    refine ⟨i, hi, ?_, by rw [hgy]; exact hm⟩
    rw [finalFlags_iff_reachesContent fps o fm hdist i hi, hgy]
    exact hr

theorem reachesContent_perm (fps fps2 : List FpNode) (o : List String)
    (fm : List (String × Str)) (y : FpNode) (hperm : fps.Perm fps2)
    (hr : ReachesContent fps o fm y) : ReachesContent fps2 o fm y := by
  rcases hr with ⟨x, hx, hseed, hpath⟩
  refine ⟨x, hperm.mem_iff.mp hx, hseed, ?_⟩
  induction hpath with
  | refl => exact Relation.ReflTransGen.refl
  | tail _ hbc ih =>
    exact Relation.ReflTransGen.tail ih ⟨hperm.mem_iff.mp hbc.1, hbc.2⟩


theorem collectFingerprints_error (units : List FpUnit) (u : FpUnit)
    (hu : u ∈ units) (file : FpFile) (hfile : firstJson u.files = some file)
    (hparse : file.parse = none) :
    ∃ msg, collectFingerprints units = .error msg := by
  induction units with
  | nil => cases hu
  | cons v rest ih =>
    rcases List.mem_cons.mp hu with rfl | hu
    · exact ⟨"error parsing file: " ++ u.stem,
        by simp [collectFingerprints, hfile, hparse]⟩
    · rcases ih hu with ⟨msg, hmsg⟩
      cases hfj : firstJson v.files with
      | none =>
        exact ⟨msg, by simp only [collectFingerprints, hfj]; exact hmsg⟩
      | some f2 =>
        cases hp2 : f2.parse with
        | none => exact ⟨"error parsing file: " ++ v.stem,
            by simp [collectFingerprints, hfj, hp2]⟩
        | some fpr =>
          exact ⟨msg, by simp [collectFingerprints, hfj, hp2, hmsg]⟩

theorem collectDepInfo_outdated (ch : List String) (meta : Metadata)
    (files : List DFile) (f : DFile) (hf : f ∈ files) (hd : f.ext = "d")
    (dep : String) (hdep : read_first_dep f.content = some dep)
    (hfeat : get_dep_features ch meta (parsePath dep) = none)
    (o : List String) (fm : List (String × Str))
    (hok : collectDepInfo ch meta files = .ok (o, fm)) :
    metaHashOfStem f.stem ∈ o := by
  induction files generalizing o fm with
  | nil => cases hf
  | cons g rest ih =>
    rcases List.mem_cons.mp hf with rfl | hf
    · rw [collectDepInfo] at hok
      simp only [hd, if_true, beq_self_eq_true, hdep] at hok
      cases hrest : collectDepInfo ch meta rest with
      | error e => rw [hrest] at hok; exact Except.noConfusion hok
      | ok pr =>
        obtain ⟨o2, fm2⟩ := pr
        rw [hrest, hfeat] at hok
        obtain ⟨ho, _⟩ := Prod.mk.injEq .. |>.mp (Except.ok.inj hok)
        rw [← ho]
        exact List.mem_cons_self _ _
    · rw [collectDepInfo] at hok
      by_cases hg : g.ext == "d"
      · simp only [hg, if_true] at hok
        cases hrd : read_first_dep g.content with
        | none => rw [hrd] at hok; exact Except.noConfusion hok
        | some gdep =>
          rw [hrd] at hok
          dsimp only at hok
          cases hrest : collectDepInfo ch meta rest with
          | error e => rw [hrest] at hok; exact Except.noConfusion hok
          | ok pr =>
            obtain ⟨o2, fm2⟩ := pr
            rw [hrest] at hok
            dsimp only at hok
            have hin := ih hf o2 fm2 hrest
            cases hgf : get_dep_features ch meta (parsePath gdep) with
            | none =>
              rw [hgf] at hok
              obtain ⟨ho, _⟩ := Prod.mk.injEq .. |>.mp (Except.ok.inj hok)
              rw [← ho]
              exact List.mem_cons_of_mem _ hin
            | some feat =>
              rw [hgf] at hok
              obtain ⟨ho, _⟩ := Prod.mk.injEq .. |>.mp (Except.ok.inj hok)
              rw [← ho]
              exact hin
      · simp only [hg, if_false] at hok
        exact ih hf o fm hok

theorem collectFingerprints_mem (units : List FpUnit) (u : FpUnit)
    (file : FpFile) (fpr : Fingerprint) (l : List FpNode) (hu : u ∈ units)
    (hfile : firstJson u.files = some file) (hparse : file.parse = some fpr)
    (hok : collectFingerprints units = .ok l) :
    (metaHashOfStem u.stem, fpr) ∈ l := by
  induction units generalizing l with
  | nil => cases hu
  | cons v rest ih =>
    rcases List.mem_cons.mp hu with rfl | hu
    · rw [collectFingerprints, hfile] at hok
      dsimp only at hok
      rw [hparse] at hok
      dsimp only at hok
      cases hrest : collectFingerprints rest with
      | error e => rw [hrest] at hok; exact Except.noConfusion hok
      | ok l2 =>
        rw [hrest] at hok
        dsimp only at hok
        rw [← Except.ok.inj hok]
        exact List.mem_cons_self _ _
    · rw [collectFingerprints] at hok
      cases hfj : firstJson v.files with
      | none =>
        rw [hfj] at hok
        dsimp only at hok
        exact ih l hu hok
      | some f2 =>
        rw [hfj] at hok
        dsimp only at hok
        cases hp2 : f2.parse with
        | none =>
          rw [hp2] at hok
          dsimp only at hok
          exact Except.noConfusion hok
        | some fpr2 =>
          rw [hp2] at hok
          dsimp only at hok
          cases hrest : collectFingerprints rest with
          | error e => rw [hrest] at hok; exact Except.noConfusion hok
          | ok l2 =>
            rw [hrest] at hok
            dsimp only at hok
            rw [← Except.ok.inj hok]
            exact List.mem_cons_of_mem _ (ih l2 hu hrest)

theorem seeded_node_removed (fps : List FpNode) (o : List String)
    (fm : List (String × Str)) (p : FpNode) (hp : p ∈ fps)
    (hcond : seedCond o fm p = true) :
    p.1 ∈ metaHashesToRemove fps o fm := by
  rcases List.mem_iff_getElem.mp hp with ⟨i, hi, hgi⟩
  have hgp : fps.get ⟨i, hi⟩ = p := by simpa [List.get_eq_getElem] using hgi
  have hseed : i ∈ seedIdx fps o fm :=
    (mem_seedIdx fps o fm i).mpr ⟨hi, by rw [hgp]; exact hcond⟩
  have hflag : (finalFlags fps o fm).getD i false = true := by
    rw [finalFlags, propagate]
    exact flagLoop_stack_flagged _ _ _ i (List.mem_reverse.mpr hseed)
      (by simpa using hi)
  exact (mem_metaHashesToRemove fps o fm p.1).mpr
    ⟨i, hi, hflag, by rw [hgp]⟩


/-- Claim C4, amended: `clear_cargo_cache` deletes a top-level entry of
either tree exactly when its name is absent from the inventory; for the
registry tree it otherwise descends one level and deletes exactly the
children absent from the matching package map; a git entry present in
the inventory is kept whole, with no descent.  Entries present in the
inventory are never deleted. -/
theorem clear_cargo_cache_sweep_spec (meta : Metadata)
    (gitE regE : List (String × List String)) :
    (∀ n, CachePath.gitTop n ∈ clear_cargo_cache meta gitE regE ↔
      ((∃ cs, (n, cs) ∈ gitE) ∧ lookupA meta.packages.git n = none)) ∧
    (∀ n, CachePath.regTop n ∈ clear_cargo_cache meta gitE regE ↔
      ((∃ cs, (n, cs) ∈ regE) ∧ lookupA meta.packages.registry n = none)) ∧
    (∀ n c, CachePath.regChild n c ∈ clear_cargo_cache meta gitE regE ↔
      (∃ packages, lookupA meta.packages.registry n = some packages ∧
        lookupA packages c = none ∧ ∃ cs, (n, cs) ∈ regE ∧ c ∈ cs)) := by
  refine ⟨?_, ?_, ?_⟩
  · intro n
    rw [mem_clear_cargo_cache]
    constructor
    · rintro (⟨⟨en, ecs⟩, he, hnone, heq⟩ | ⟨e, he, pkgs, ho, c, hc, hnone, heq⟩ |
        ⟨e, he, hnone, heq⟩)
      · injection heq with h
        subst h
        exact ⟨⟨ecs, he⟩, hnone⟩
      · exact CachePath.noConfusion heq
      · exact CachePath.noConfusion heq
    · rintro ⟨⟨cs, hcs⟩, hnone⟩
      exact Or.inl ⟨(n, cs), hcs, hnone, rfl⟩
  · intro n
    rw [mem_clear_cargo_cache]
    constructor
    · rintro (⟨e, he, hnone, heq⟩ | ⟨e, he, pkgs, ho, c, hc, hnone, heq⟩ |
        ⟨⟨en, ecs⟩, he, hnone, heq⟩)
      · exact CachePath.noConfusion heq
      · exact CachePath.noConfusion heq
      · injection heq with h
        subst h
        exact ⟨⟨ecs, he⟩, hnone⟩
    · rintro ⟨⟨cs, hcs⟩, hnone⟩
      exact Or.inr (Or.inr ⟨(n, cs), hcs, hnone, rfl⟩)
  · intro n c
    rw [mem_clear_cargo_cache]
    constructor
    · rintro (⟨e, he, hnone, heq⟩ |
        ⟨⟨en, ecs⟩, he, pkgs, ho, c2, hc2, hnone, heq⟩ | ⟨e, he, hnone, heq⟩)
      · exact CachePath.noConfusion heq
      · injection heq with h1 h2
        subst h1 h2
        exact ⟨pkgs, ho, hnone, ecs, he, hc2⟩
      · exact CachePath.noConfusion heq
    · rintro ⟨pkgs, ho, hnone, cs, hcs, hc⟩
      exact Or.inr (Or.inl ⟨(n, cs), hcs, pkgs, ho, c, hc, hnone, rfl⟩)

/-- Counterexample to C4 as stated: repository `r` is inventoried with
revision set containing only `a`, yet the on-disk child `b` — absent
from the inventory — is not deleted: the sweep deletes nothing at all,
while the claim requires a delete call on the stale child. -/
theorem clear_cargo_cache_git_children_kept :
    lookupA [("a", "ida")] "b" = none ∧
    clear_cargo_cache exMetaGit [("r", ["a", "b"])] [] = [] := by
  constructor
  · rfl
  · rfl

/-- Claim C7: fatal parse fault — whenever any fingerprint record file
selected for loading (the first `json` file of its unit directory)
fails to parse, `clear_target` returns an error for the whole run; no
sweep result is produced. -/
theorem clear_target_fatal_on_malformed (ch : List String) (meta : Metadata)
    (fs : TargetFs) (u : FpUnit) (hu : u ∈ fs.fpUnits) (file : FpFile)
    (hfile : firstJson u.files = some file) (hparse : file.parse = none) :
    ∃ msg, clear_target ch meta fs = .error msg := by
  rcases collectFingerprints_error fs.fpUnits u hu file hfile hparse with
    ⟨msg, hmsg⟩
  unfold clear_target
  cases hdi : collectDepInfo ch meta
      ((fs.buildUnits.map Prod.snd).flatten ++ fs.depsFiles) with
  | error e => exact ⟨e, rfl⟩
  | ok pr =>
    obtain ⟨o, fm⟩ := pr
    refine ⟨msg, ?_⟩
    dsimp only
    rw [hmsg]

/-- Witness for C7 at a concrete tree with one malformed record. -/
theorem clear_target_fatal_on_malformed_witness :
    (⟨"u-x", [⟨"json", none⟩]⟩ : FpUnit) ∈ fsBad.fpUnits ∧
    firstJson (⟨"u-x", [⟨"json", none⟩]⟩ : FpUnit).files = some ⟨"json", none⟩ ∧
    (⟨"json", none⟩ : FpFile).parse = none ∧
    ∃ msg, clear_target [] metaEmpty fsBad = .error msg :=
  ⟨by decide, by decide, rfl,
    clear_target_fatal_on_malformed [] metaEmpty fsBad
      ⟨"u-x", [⟨"json", none⟩]⟩ (by decide) ⟨"json", none⟩ (by decide) rfl⟩


/-- Claim C10: a unit whose dep-info first source path resolves to no
inventoried package has its metadata hash put in the outdated set, so
any fingerprint unit carrying that hash is seeded stale and its
directory entry is deleted by the sweep — on every successful run. -/
theorem local_package_purged (ch : List String) (meta : Metadata)
    (fs : TargetFs) (f : DFile)
    (hf : f ∈ (fs.buildUnits.map Prod.snd).flatten ++ fs.depsFiles)
    (hd : f.ext = "d") (dep : String)
    (hdep : read_first_dep f.content = some dep)
    (hfeat : get_dep_features ch meta (parsePath dep) = none)
    (u : FpUnit) (hu : u ∈ fs.fpUnits) (file : FpFile)
    (hjson : firstJson u.files = some file) (fpr : Fingerprint)
    (hparse : file.parse = some fpr)
    (hstem : metaHashOfStem u.stem = metaHashOfStem f.stem)
    (deletes : List TPath) (hok : clear_target ch meta fs = .ok deletes) :
    TPath.fpDirEnt u.stem ∈ deletes := by
  unfold clear_target at hok
  cases hdi : collectDepInfo ch meta
      ((fs.buildUnits.map Prod.snd).flatten ++ fs.depsFiles) with
  | error e => rw [hdi] at hok; exact Except.noConfusion hok
  | ok pr =>
    obtain ⟨o, fm⟩ := pr
    rw [hdi] at hok
    dsimp only at hok
    cases hfp : collectFingerprints fs.fpUnits with
    | error e => rw [hfp] at hok; exact Except.noConfusion hok
    | ok fps =>
      rw [hfp] at hok
      dsimp only at hok
      have hdel := Except.ok.inj hok
      have hho : metaHashOfStem f.stem ∈ o :=
        collectDepInfo_outdated ch meta _ f hf hd dep hdep hfeat o fm hdi
      have hnode : (metaHashOfStem u.stem, fpr) ∈ fps :=
        collectFingerprints_mem fs.fpUnits u file fpr fps hu hjson hparse hfp
      have hcond : seedCond o fm (metaHashOfStem u.stem, fpr) = true := by
        have : metaHashOfStem u.stem ∈ o := by rw [hstem]; exact hho
        simp [seedCond, this]
      have hrem : metaHashOfStem u.stem ∈ metaHashesToRemove fps o fm :=
        seeded_node_removed fps o fm _ hnode hcond
      rw [← hdel]
      refine List.mem_append_right _ ?_
      unfold sweepTarget
      refine List.mem_append_right _ ?_
      rw [List.mem_map]
      refine ⟨u, ?_, rfl⟩
      rw [List.mem_filter]
      exact ⟨hu, by simpa using hrem⟩

/-- Claim C5, amended: when the loaded records' canonical hashes are
pairwise distinct, the removal set produced by the seed-and-propagate
phase is invariant under any permutation of the fingerprint list. -/
theorem clear_target_removal_order_independent (fps fps2 : List FpNode)
    (o : List String) (fm : List (String × Str)) (hperm : fps.Perm fps2)
    (hdist : (fps.map (fun p => p.2.get_hash)).Nodup) :
    ∀ m, m ∈ metaHashesToRemove fps o fm ↔ m ∈ metaHashesToRemove fps2 o fm := by
  intro m
  have hdist2 : (fps2.map (fun p => p.2.get_hash)).Nodup :=
    ((hperm.map (fun p => p.2.get_hash)).nodup_iff).mp hdist
  rw [metaHashesToRemove_content fps o fm hdist m,
    metaHashesToRemove_content fps2 o fm hdist2 m]
  constructor
  · rintro ⟨y, hy, hm, hr⟩
    exact ⟨y, hperm.mem_iff.mp hy, hm,
      reachesContent_perm fps fps2 o fm y hperm hr⟩
  · rintro ⟨y, hy, hm, hr⟩
    exact ⟨y, hperm.symm.mem_iff.mp hy, hm,
      reachesContent_perm fps2 fps o fm y hperm.symm hr⟩

theorem flagLoopFuel_sound (rev : List (List Nat)) (k : Nat) :
    ∀ (flagged : List Bool) (stack : List Nat) (r : List Bool),
      flagLoopFuel rev k flagged stack = some r →
      flagLoop rev flagged stack = r := by
  induction k with
  | zero => intro flagged stack r h; simp [flagLoopFuel] at h
  | succ k ih =>
    intro flagged stack r h
    match stack with
    | [] =>
      rw [flagLoop_nil]
      simpa [flagLoopFuel] using h
    | i :: rest =>
      by_cases hlt : i < flagged.length
      · by_cases hv : flagged.get ⟨i, hlt⟩ = true
        · rw [flagLoop_cons_skip rev flagged i rest hlt hv]
          rw [flagLoopFuel] at h
          simp only [hlt, hv, dif_pos, if_pos] at h
          exact ih _ _ _ h
        · rw [flagLoop_cons_flag rev flagged i rest hlt hv]
          rw [flagLoopFuel] at h
          simp only [hlt, hv, dif_pos, if_neg] at h
          exact ih _ _ _ h
      · rw [flagLoop_cons_oob rev flagged i rest hlt]
        rw [flagLoopFuel] at h
        simp only [hlt, dif_neg, not_false_iff] at h
        exact ih _ _ _ h

theorem metaHashesToRemove_eval (fps : List FpNode) (o : List String)
    (fm : List (String × Str)) (fl : List Bool)
    (hff : finalFlags fps o fm = fl) :
    metaHashesToRemove fps o fm =
      (fps.enum.filter (fun p => fl.getD p.1 false)).map (·.2.1) := by
  simp only [metaHashesToRemove, hff]

set_option maxRecDepth 100000 in
/-- Counterexample to C5 as stated: two permuted runs over records with
a duplicated canonical hash produce different removal sets, because the
hash-to-index map keeps the later record and edge resolution follows
it. -/
theorem removal_set_not_order_independent :
    List.Perm [("aaa", Fz), ("bbb", Fz), ("ddd", Dz)]
      [("bbb", Fz), ("aaa", Fz), ("ddd", Dz)] ∧
    "ddd" ∉ metaHashesToRemove [("aaa", Fz), ("bbb", Fz), ("ddd", Dz)]
      ["aaa"] [] ∧
    "ddd" ∈ metaHashesToRemove [("bbb", Fz), ("aaa", Fz), ("ddd", Dz)]
      ["aaa"] [] := by
  have h1 : metaHashesToRemove [("aaa", Fz), ("bbb", Fz), ("ddd", Dz)]
      ["aaa"] [] = ["aaa"] := by
    rw [metaHashesToRemove_eval _ _ _ [true, false, false]
      (flagLoopFuel_sound _ 10 _ _ _ (by decide))]
    decide
  have h2 : metaHashesToRemove [("bbb", Fz), ("aaa", Fz), ("ddd", Dz)]
      ["aaa"] [] = ["aaa", "ddd"] := by
    rw [metaHashesToRemove_eval _ _ _ [false, true, true]
      (flagLoopFuel_sound _ 10 _ _ _ (by decide))]
    decide
  refine ⟨List.Perm.swap ("bbb", Fz) ("aaa", Fz) _, ?_, ?_⟩
  · rw [h1]; decide
  · rw [h2]; decide

set_option maxRecDepth 100000 in
/-- Witness for the amended C5 on a two-node list with distinct
hashes. -/
theorem clear_target_removal_order_independent_witness :
    List.Perm [("aaa", Fz), ("ddd", Dz)] [("ddd", Dz), ("aaa", Fz)] ∧
    (([("aaa", Fz), ("ddd", Dz)] : List FpNode).map
      (fun p => p.2.get_hash)).Nodup ∧
    (∀ m, m ∈ metaHashesToRemove [("aaa", Fz), ("ddd", Dz)] ["aaa"] [] ↔
      m ∈ metaHashesToRemove [("ddd", Dz), ("aaa", Fz)] ["aaa"] []) :=
  ⟨List.Perm.swap ("ddd", Dz) ("aaa", Fz) [],
    by decide,
    clear_target_removal_order_independent
      [("aaa", Fz), ("ddd", Dz)] [("ddd", Dz), ("aaa", Fz)] ["aaa"] []
      (List.Perm.swap ("ddd", Dz) ("aaa", Fz) [])
      (by decide)⟩


set_option maxRecDepth 100000 in
/-- Witness for C10: a local-path unit seeds its hash and its
fingerprint directory entry is deleted. -/
theorem local_package_purged_witness :
    ((⟨"dep-lib-x", "d", "out: src/lib.rs"⟩ : DFile) ∈
      (fsLocal.buildUnits.map Prod.snd).flatten ++ fsLocal.depsFiles) ∧
    (⟨"dep-lib-x", "d", "out: src/lib.rs"⟩ : DFile).ext = "d" ∧
    read_first_dep "out: src/lib.rs" = some "src/lib.rs" ∧
    get_dep_features [] metaEmpty (parsePath "src/lib.rs") = none ∧
    ((⟨"foo-x", [⟨"json", some Fz⟩]⟩ : FpUnit) ∈ fsLocal.fpUnits) ∧
    firstJson [⟨"json", some Fz⟩] = some ⟨"json", some Fz⟩ ∧
    (⟨"json", some Fz⟩ : FpFile).parse = some Fz ∧
    metaHashOfStem "foo-x" = metaHashOfStem "dep-lib-x" ∧
    clear_target [] metaEmpty fsLocal = .ok
      [.top "junk.txt", .buildDirEnt "u-x", .fpDirEnt "foo-x"] ∧
    TPath.fpDirEnt "foo-x" ∈
      [TPath.top "junk.txt", TPath.buildDirEnt "u-x", TPath.fpDirEnt "foo-x"] := by
  have hdi : collectDepInfo [] metaEmpty
      ((fsLocal.buildUnits.map Prod.snd).flatten ++ fsLocal.depsFiles) =
      .ok (["x"], []) := by rfl
  have hfp : collectFingerprints fsLocal.fpUnits = .ok [("x", Fz)] := by
    rfl
  have hff : finalFlags [("x", Fz)] ["x"] [] = [true] :=
    flagLoopFuel_sound _ 10 _ _ _ (by decide)
  have hok : clear_target [] metaEmpty fsLocal = .ok
      [.top "junk.txt", .buildDirEnt "u-x", .fpDirEnt "foo-x"] := by
    unfold clear_target
    rw [hdi]
    dsimp only
    rw [hfp]
    dsimp only
    rw [metaHashesToRemove_eval _ _ _ [true] hff]
    rfl
  refine ⟨by decide, rfl, by decide, by rfl, by decide, by decide, rfl,
    by decide, hok, ?_⟩
  exact local_package_purged [] metaEmpty fsLocal
    ⟨"dep-lib-x", "d", "out: src/lib.rs"⟩ (by decide) rfl "src/lib.rs"
    (by decide) (by rfl) ⟨"foo-x", [⟨"json", some Fz⟩]⟩ (by decide)
    ⟨"json", some Fz⟩ (by decide) Fz rfl (by decide) _ hok

end CiPrecache
